import Mathlib

/-!
Verification of the spelling corrector in `spellchecker.py` (Norvig-style).

Words are modelled as `List Char`; the frequency table (a `Counter` built
once from a corpus the core never reads itself) is modelled as an
association list from word to count, with the `Counter` lookup convention
that a missing key reads as count 0.  All operations below are shallow
embeddings of the corresponding Python functions, translated clause by
clause from the source.
-/

/-- A word: a finite sequence of characters. -/
abbrev Word := List Char

/-- The frequency table: association list from word to occurrence count
(the `WORDS` Counter in the source, abstracted over its corpus). -/
abbrev Table := List (Word × Nat)

/-- `w in WORDS`: dictionary key-membership test. -/
def memTable (tbl : Table) (w : Word) : Bool :=
  (tbl.find? (fun p => p.1 == w)).isSome

/-- `WORDS[word]` with `Counter` semantics: the stored count, or 0 when the
key is absent. -/
def counterGet (tbl : Table) (w : Word) : Nat :=
  ((tbl.find? (fun p => p.1 == w)).map Prod.snd).getD 0

/-- `P(word, N)`: `WORDS[word] / float(N)`, with exact rationals standing in
for the Python float division. -/
def P (tbl : Table) (N : ℕ) (w : Word) : ℚ :=
  (counterGet tbl w : ℚ) / (N : ℚ)

/-- `letters = 'abcdefghijklmnopqrstuvwxyz'`. -/
def letters : List Char :=
  ['a','b','c','d','e','f','g','h','i','j','k','l','m',
   'n','o','p','q','r','s','t','u','v','w','x','y','z']

/-- `get_splits(word)`: `[(word[:i], word[i:]) for i in range(len(word)+1)]`. -/
def get_splits (w : Word) : List (Word × Word) :=
  (List.range (w.length + 1)).map (fun i => (w.take i, w.drop i))

/-- `get_deletes(splits)`: `[L + R[1:] for L, R in splits]` — note: no
guard on `R` being non-empty. -/
def get_deletes (splits : List (Word × Word)) : List Word :=
  splits.map (fun p => p.1 ++ p.2.drop 1)

/-- The body of the transposition comprehension: defined (as
`L + R[1] + R[0] + R[2:]`) exactly when `len(R) > 1`. -/
def transposeOf (p : Word × Word) : Option Word :=
  match p.2 with
  | a :: b :: rest => some (p.1 ++ b :: a :: rest)
  | _ => none

/-- `get_transposes(splits)`:
`[L + R[1] + R[0] + R[2:] for L, R in splits if len(R)>1]`. -/
def get_transposes (splits : List (Word × Word)) : List Word :=
  splits.filterMap transposeOf

/-- The inner loop of the replacement comprehension: guarded by `if R`, it
substitutes each alphabet letter for the first character of `R`. -/
def replacesOf (p : Word × Word) : List Word :=
  match p.2 with
  | _ :: rest => letters.map (fun c => p.1 ++ c :: rest)
  | [] => []

/-- `get_replaces(splits)`:
`[L + c + R[1:] for L, R in splits if R for c in letters]`. -/
def get_replaces (splits : List (Word × Word)) : List Word :=
  splits.flatMap replacesOf

/-- The inner loop of the insertion comprehension: each alphabet letter is
inserted between `L` and `R`. -/
def insertsOf (p : Word × Word) : List Word :=
  letters.map (fun c => p.1 ++ c :: p.2)

/-- `get_inserts(splits)`: `[L + c + R for L, R in splits for c in letters]`. -/
def get_inserts (splits : List (Word × Word)) : List Word :=
  splits.flatMap insertsOf

/-- `edits1(word)`: the set of deletes, transposes, replaces and inserts;
the Python `set` is modelled as a deduplicated list. -/
def edits1 (w : Word) : List Word :=
  (get_deletes (get_splits w) ++ get_transposes (get_splits w) ++
   get_replaces (get_splits w) ++ get_inserts (get_splits w)).dedup

/-- `edits2(word)`: the generator
`(e2 for e1 in edits1(word) for e2 in edits1(e1))`, modelled as the list of
its produced elements (not deduplicated, as in the source). -/
def edits2 (w : Word) : List Word :=
  (edits1 w).flatMap edits1

/-- `known(words)`: `set(w for w in words if w in WORDS)`. -/
def known (tbl : Table) (ws : List Word) : List Word :=
  (ws.filter (fun w => memTable tbl w)).dedup

/-- `candidate(word)`:
`known([word]) or known(edits1(word)) or known(edits2(word)) or [word]`,
with Python `or` short-circuiting on the first non-empty collection. -/
def candidate (tbl : Table) (w : Word) : List Word :=
  if (known tbl [w]).isEmpty then
    if (known tbl (edits1 w)).isEmpty then
      if (known tbl (edits2 w)).isEmpty then [w] else known tbl (edits2 w)
    else known tbl (edits1 w)
  else known tbl [w]

/-- Python `max(iterable, key)`: the first element attaining the maximal
key, `none` on an empty iterable (where CPython raises `ValueError`). -/
def pyMax (key : Word → ℚ) : List Word → Option Word
  | [] => none
  | x :: xs => some (xs.foldl (fun b a => if key b < key a then a else b) x)

/-- `correction(word)`: `max(candidate(word), key=P)`. -/
def correction (tbl : Table) (N : ℕ) (w : Word) : Option Word :=
  pyMax (P tbl N) (candidate tbl w)

/-- The intersection of a produced collection of words with the table's key
set, as a finite set (spec language for what `known` computes). -/
def interKeys (tbl : Table) (ws : List Word) : Finset Word :=
  ws.toFinset.filter (fun w => memTable tbl w = true)

/-- One primitive edit, stated positionally: `s` is `w` unchanged, or `w`
with one character deleted, two adjacent characters transposed, one
character replaced, or one character inserted. -/
def OneEdit (w s : Word) : Prop :=
  s = w
  ∨ (∃ L c R, w = L ++ c :: R ∧ s = L ++ R)
  ∨ (∃ L a b R, w = L ++ a :: b :: R ∧ s = L ++ b :: a :: R)
  ∨ (∃ L c d R, w = L ++ c :: R ∧ s = L ++ d :: R)
  ∨ (∃ L c R, w = L ++ R ∧ s = L ++ c :: R)

set_option maxRecDepth 40000

/-! ### Basic lemmas about splits and the table -/

lemma append_of_mem_get_splits {w : Word} {p : Word × Word}
    (h : p ∈ get_splits w) : p.1 ++ p.2 = w := by
  rcases List.mem_map.mp h with ⟨i, _, rfl⟩
  exact List.take_append_drop i w

lemma self_mem_get_deletes (w : Word) :
    w ∈ get_deletes (get_splits w) := by
  have hs : (w, ([] : Word)) ∈ get_splits w := by
    refine List.mem_map.mpr ⟨w.length, List.mem_range.mpr (Nat.lt_succ_self _), ?_⟩
    simp
  simpa [get_deletes] using
    List.mem_map_of_mem (fun p : Word × Word => p.1 ++ p.2.drop 1) hs

lemma mem_known {tbl : Table} {ws : List Word} {x : Word} :
    x ∈ known tbl ws ↔ x ∈ ws ∧ memTable tbl x = true := by
  simp [known, List.mem_dedup, List.mem_filter]

lemma known_toFinset (tbl : Table) (ws : List Word) :
    (known tbl ws).toFinset = interKeys tbl ws := by
  ext x
  simp [mem_known, interKeys]

lemma known_isEmpty_iff (tbl : Table) (ws : List Word) :
    (known tbl ws).isEmpty = true ↔ interKeys tbl ws = ∅ := by
  rw [List.isEmpty_iff, ← known_toFinset, List.toFinset_eq_empty_iff]

lemma memTable_of_mem_known {tbl : Table} {ws : List Word} {x : Word}
    (h : x ∈ known tbl ws) : memTable tbl x = true :=
  (mem_known.mp h).2

/-! ### The Python `max` as an argmax -/

lemma foldl_max_spec (key : Word → ℚ) :
    ∀ (xs : List Word) (x : Word),
      (xs.foldl (fun b a => if key b < key a then a else b) x = x ∨
        xs.foldl (fun b a => if key b < key a then a else b) x ∈ xs) ∧
      key x ≤ key (xs.foldl (fun b a => if key b < key a then a else b) x) ∧
      ∀ y ∈ xs, key y ≤ key (xs.foldl (fun b a => if key b < key a then a else b) x)
  | [], x => ⟨Or.inl rfl, le_refl _, by simp⟩
  | a :: xs, x => by
    have ih := foldl_max_spec key xs (if key x < key a then a else x)
    have hx : key x ≤ key (if key x < key a then a else x) := by
      by_cases h : key x < key a
      · rw [if_pos h]; exact le_of_lt h
      · rw [if_neg h]
    have ha : key a ≤ key (if key x < key a then a else x) := by
      by_cases h : key x < key a
      · rw [if_pos h]
      · rw [if_neg h]; exact le_of_not_lt h
    refine ⟨?_, ?_, ?_⟩
    · simp only [List.foldl_cons]
      rcases ih.1 with h | h
      · rw [h]
        by_cases hc : key x < key a
        · rw [if_pos hc]; exact Or.inr (List.mem_cons_self a xs)
        · rw [if_neg hc]; exact Or.inl rfl
      · exact Or.inr (List.mem_cons_of_mem a h)
    · simp only [List.foldl_cons]
      exact le_trans hx ih.2.1
    · intro y hy
      simp only [List.foldl_cons]
      rcases List.mem_cons.mp hy with rfl | hy
      · exact le_trans ha ih.2.1
      · exact ih.2.2 y hy

lemma pyMax_spec {key : Word → ℚ} {l : List Word} {r : Word}
    (h : pyMax key l = some r) : r ∈ l ∧ ∀ y ∈ l, key y ≤ key r := by
  cases l with
  | nil => simp [pyMax] at h
  | cons x xs =>
    have hr : r = xs.foldl (fun b a => if key b < key a then a else b) x := by
      simpa [pyMax] using h.symm
    subst hr
    obtain ⟨hmem, hx, hall⟩ := foldl_max_spec key xs x
    refine ⟨?_, ?_⟩
    · rcases hmem with h | h
      · rw [h]; exact List.mem_cons_self x xs
      · exact List.mem_cons_of_mem x h
    · intro y hy
      rcases List.mem_cons.mp hy with rfl | hy
      · exact hx
      · exact hall y hy

lemma pyMax_isSome {key : Word → ℚ} {l : List Word} (h : l ≠ []) :
    (pyMax key l).isSome = true := by
  cases l with
  | nil => exact absurd rfl h
  | cons x xs => simp [pyMax]

/-! ### The candidate cascade, branch by branch -/

lemma known_singleton_of_mem {tbl : Table} {w : Word}
    (h : memTable tbl w = true) : known tbl [w] = [w] := by
  simp [known, List.filter, h]

lemma known_singleton_of_not_mem {tbl : Table} {w : Word}
    (h : memTable tbl w = false) : known tbl [w] = [] := by
  simp [known, List.filter, h]

lemma candidate_of_mem {tbl : Table} {w : Word}
    (h : memTable tbl w = true) : candidate tbl w = [w] := by
  unfold candidate
  rw [known_singleton_of_mem h]
  simp

lemma candidate_stage2 {tbl : Table} {w : Word}
    (h0 : memTable tbl w = false) (h1 : interKeys tbl (edits1 w) ≠ ∅) :
    candidate tbl w = known tbl (edits1 w) := by
  unfold candidate
  rw [known_singleton_of_not_mem h0]
  have h1' : (known tbl (edits1 w)).isEmpty = false :=
    Bool.eq_false_iff.mpr (fun h => h1 ((known_isEmpty_iff tbl (edits1 w)).mp h))
  simp [h1']

lemma candidate_stage3 {tbl : Table} {w : Word}
    (h0 : memTable tbl w = false) (h1 : interKeys tbl (edits1 w) = ∅)
    (h2 : interKeys tbl (edits2 w) ≠ ∅) :
    candidate tbl w = known tbl (edits2 w) := by
  unfold candidate
  rw [known_singleton_of_not_mem h0]
  have h1' : (known tbl (edits1 w)).isEmpty = true :=
    (known_isEmpty_iff tbl (edits1 w)).mpr h1
  have h2' : (known tbl (edits2 w)).isEmpty = false :=
    Bool.eq_false_iff.mpr (fun h => h2 ((known_isEmpty_iff tbl (edits2 w)).mp h))
  simp [h1', h2']

lemma candidate_stage4 {tbl : Table} {w : Word}
    (h0 : memTable tbl w = false) (h1 : interKeys tbl (edits1 w) = ∅)
    (h2 : interKeys tbl (edits2 w) = ∅) :
    candidate tbl w = [w] := by
  unfold candidate
  rw [known_singleton_of_not_mem h0]
  have h1' : (known tbl (edits1 w)).isEmpty = true :=
    (known_isEmpty_iff tbl (edits1 w)).mpr h1
  have h2' : (known tbl (edits2 w)).isEmpty = true :=
    (known_isEmpty_iff tbl (edits2 w)).mpr h2
  simp [h1', h2']

lemma ne_nil_of_not_isEmpty {l : List Word} (h : ¬ l.isEmpty = true) :
    l ≠ [] := by
  intro hc
  exact h (by simp [hc])

lemma candidate_ne_nil (tbl : Table) (w : Word) : candidate tbl w ≠ [] := by
  unfold candidate
  by_cases h0 : (known tbl [w]).isEmpty
  · rw [if_pos h0]
    by_cases h1 : (known tbl (edits1 w)).isEmpty
    · rw [if_pos h1]
      by_cases h2 : (known tbl (edits2 w)).isEmpty
      · rw [if_pos h2]; simp
      · rw [if_neg h2]; exact ne_nil_of_not_isEmpty h2
    · rw [if_neg h1]; exact ne_nil_of_not_isEmpty h1
  · rw [if_neg h0]; exact ne_nil_of_not_isEmpty h0

lemma mem_candidate_cases {tbl : Table} {w r : Word}
    (h : r ∈ candidate tbl w) : memTable tbl r = true ∨ r = w := by
  unfold candidate at h
  by_cases h0 : (known tbl [w]).isEmpty
  · rw [if_pos h0] at h
    by_cases h1 : (known tbl (edits1 w)).isEmpty
    · rw [if_pos h1] at h
      by_cases h2 : (known tbl (edits2 w)).isEmpty
      · rw [if_pos h2] at h
        exact Or.inr (List.mem_singleton.mp h)
      · rw [if_neg h2] at h
        exact Or.inl (memTable_of_mem_known h)
    · rw [if_neg h1] at h
      exact Or.inl (memTable_of_mem_known h)
  · rw [if_neg h0] at h
    exact Or.inl (memTable_of_mem_known h)

/-! ### Every generated edit is one primitive operation away -/

lemma oneEdit_of_mem_deletes {w s : Word}
    (h : s ∈ get_deletes (get_splits w)) : OneEdit w s := by
  rcases List.mem_map.mp h with ⟨⟨L, R⟩, hp, rfl⟩
  have hw := append_of_mem_get_splits hp
  cases R with
  | nil =>
    left
    simpa using hw
  | cons c R' =>
    right; left
    exact ⟨L, c, R', by simpa using hw.symm, by simp⟩

lemma oneEdit_of_mem_transposes {w s : Word}
    (h : s ∈ get_transposes (get_splits w)) : OneEdit w s := by
  rcases List.mem_filterMap.mp h with ⟨⟨L, R⟩, hp, hsome⟩
  have hw := append_of_mem_get_splits hp
  match R, hsome with
  | a :: b :: rest, hsome =>
    have hs : s = L ++ b :: a :: rest := by
      simpa [transposeOf] using hsome.symm
    right; right; left
    exact ⟨L, a, b, rest, by simpa using hw.symm, hs⟩

lemma oneEdit_of_mem_replaces {w s : Word}
    (h : s ∈ get_replaces (get_splits w)) : OneEdit w s := by
  rcases List.mem_flatMap.mp h with ⟨⟨L, R⟩, hp, hin⟩
  have hw := append_of_mem_get_splits hp
  cases R with
  | nil => simp [replacesOf] at hin
  | cons x rest =>
    rcases List.mem_map.mp hin with ⟨c, _, rfl⟩
    right; right; right; left
    exact ⟨L, x, c, rest, by simpa using hw.symm, rfl⟩

lemma oneEdit_of_mem_inserts {w s : Word}
    (h : s ∈ get_inserts (get_splits w)) : OneEdit w s := by
  rcases List.mem_flatMap.mp h with ⟨⟨L, R⟩, hp, hin⟩
  have hw := append_of_mem_get_splits hp
  rcases List.mem_map.mp hin with ⟨c, _, rfl⟩
  right; right; right; right
  exact ⟨L, c, R, by simpa using hw.symm, rfl⟩

/-! ### Counting the outputs of each edit operation -/

lemma length_get_splits (w : Word) :
    (get_splits w).length = w.length + 1 := by
  simp [get_splits]

lemma length_get_deletes (w : Word) :
    (get_deletes (get_splits w)).length = w.length + 1 := by
  simp [get_deletes, length_get_splits]

lemma get_splits_cons (c : Char) (w : Word) :
    get_splits (c :: w) =
      ([], c :: w) :: (get_splits w).map (fun p => (c :: p.1, p.2)) := by
  have h : List.range ((c :: w).length + 1) =
      0 :: (List.range (w.length + 1)).map Nat.succ := by
    rw [List.length_cons, List.range_succ_eq_map]
  unfold get_splits
  rw [h, List.map_cons, List.map_map, List.map_map]
  refine congrArg₂ List.cons (by simp) ?_
  apply List.map_congr_left
  intro i _
  simp [Nat.succ_eq_add_one]

lemma transposeOf_cons_fst (c : Char) (p : Word × Word) :
    transposeOf (c :: p.1, p.2) = (transposeOf p).map (fun s => c :: s) := by
  rcases p with ⟨L, R⟩
  match R with
  | [] => rfl
  | [a] => rfl
  | a :: b :: rest => rfl

lemma length_get_transposes : ∀ w : Word,
    (get_transposes (get_splits w)).length = w.length - 1
  | [] => rfl
  | [c] => rfl
  | c :: d :: w => by
    have ih := length_get_transposes (d :: w)
    rw [get_splits_cons c (d :: w)]
    unfold get_transposes
    rw [List.filterMap_cons]
    have hhead : transposeOf ([], c :: d :: w) = some (d :: c :: w) := rfl
    rw [hhead, List.filterMap_map]
    have hcomp : (transposeOf ∘ fun p : Word × Word => (c :: p.1, p.2)) =
        fun p => (transposeOf p).map (fun s => c :: s) := by
      funext p
      exact transposeOf_cons_fst c p
    rw [hcomp, ← List.map_filterMap, List.length_cons, List.length_map]
    unfold get_transposes at ih
    rw [ih]
    simp

lemma length_replacesOf_cons_fst (c : Char) (p : Word × Word) :
    (replacesOf (c :: p.1, p.2)).length = (replacesOf p).length := by
  rcases p with ⟨L, R⟩
  cases R with
  | nil => rfl
  | cons x rest => simp [replacesOf]

lemma length_flatMap_map_cons_fst (f : Word × Word → List Word)
    (hf : ∀ c p, (f (c :: p.1, p.2)).length = (f p).length)
    (c : Char) (l : List (Word × Word)) :
    (((l.map (fun p => (c :: p.1, p.2))).flatMap f)).length =
      (l.flatMap f).length := by
  rw [List.length_flatMap, List.length_flatMap, List.map_map]
  refine congrArg List.sum ?_
  apply List.map_congr_left
  intro p _
  exact hf c p

lemma length_get_replaces : ∀ w : Word,
    (get_replaces (get_splits w)).length = 26 * w.length
  | [] => rfl
  | c :: w => by
    have ih := length_get_replaces w
    rw [get_splits_cons c w]
    unfold get_replaces
    rw [List.flatMap_cons, List.length_append,
      length_flatMap_map_cons_fst replacesOf length_replacesOf_cons_fst]
    unfold get_replaces at ih
    rw [ih]
    have hhead : (replacesOf ([], c :: w)).length = 26 := by
      simp [replacesOf, letters]
    rw [hhead, List.length_cons]
    ring

lemma length_flatMap_const {α : Type} (f : α → List Word) (k : ℕ)
    (hf : ∀ a, (f a).length = k) : ∀ l : List α, (l.flatMap f).length = k * l.length
  | [] => by simp
  | a :: l => by
    rw [List.flatMap_cons, List.length_append, hf,
      length_flatMap_const f k hf l, List.length_cons]
    ring

lemma length_get_inserts (w : Word) :
    (get_inserts (get_splits w)).length = 26 * (w.length + 1) := by
  unfold get_inserts
  rw [length_flatMap_const insertsOf 26 (fun p => by simp [insertsOf, letters]),
    length_get_splits]

lemma interKeys_nil (ws : List Word) : interKeys [] ws = ∅ := by
  ext x
  simp [interKeys, memTable]

/-! ### Claim theorems -/

/-- Claim C1: the candidate selector is a strict fallback cascade returning
a non-empty set: a known word yields exactly `{word}`; otherwise the
intersection of `edits1(word)` with the table's keys when non-empty;
otherwise the intersection of `edits2(word)` with the keys when non-empty;
otherwise `{word}`. -/
theorem candidate_fallback_cascade (tbl : Table) (w : Word) :
    0 < (candidate tbl w).length ∧
    (memTable tbl w = true → (candidate tbl w).toFinset = {w}) ∧
    (memTable tbl w = false → interKeys tbl (edits1 w) ≠ ∅ →
      (candidate tbl w).toFinset = interKeys tbl (edits1 w)) ∧
    (memTable tbl w = false → interKeys tbl (edits1 w) = ∅ →
      interKeys tbl (edits2 w) ≠ ∅ →
      (candidate tbl w).toFinset = interKeys tbl (edits2 w)) ∧
    (memTable tbl w = false → interKeys tbl (edits1 w) = ∅ →
      interKeys tbl (edits2 w) = ∅ → (candidate tbl w).toFinset = {w}) := by
  refine ⟨List.length_pos.mpr (candidate_ne_nil tbl w), ?_, ?_, ?_, ?_⟩
  · intro h
    rw [candidate_of_mem h]
    simp
  · intro h0 h1
    rw [candidate_stage2 h0 h1, known_toFinset]
  · intro h0 h1 h2
    rw [candidate_stage3 h0 h1 h2, known_toFinset]
  · intro h0 h1 h2
    rw [candidate_stage4 h0 h1 h2]
    simp

/-- Witness for C1: the four cascade stages realized on concrete tables. -/
theorem candidate_fallback_cascade_witness :
    (candidate [(['t','h','e'], 2)] ['t','h','e']).toFinset = {['t','h','e']} ∧
    (candidate [(['t','h','e'], 2)] ['t','h','q']).toFinset =
      interKeys [(['t','h','e'], 2)] (edits1 ['t','h','q']) ∧
    (candidate [(['x','y'], 1)] ['a']).toFinset =
      interKeys [(['x','y'], 1)] (edits2 ['a']) ∧
    (candidate [] ['a']).toFinset = {['a']} := by
  refine ⟨(candidate_fallback_cascade _ _).2.1 (by decide),
    (candidate_fallback_cascade _ _).2.2.1 (by decide) (by decide), ?_, ?_⟩
  · have hx1 : (['x'] : Word) ∈ edits1 ['a'] := by decide
    have hx2 : (['x','y'] : Word) ∈ edits1 ['x'] := by decide
    have hxy : (['x','y'] : Word) ∈ edits2 ['a'] :=
      List.mem_flatMap.mpr ⟨['x'], hx1, hx2⟩
    have hmem : (['x','y'] : Word) ∈ interKeys [(['x','y'], 1)] (edits2 ['a']) :=
      Finset.mem_filter.mpr ⟨List.mem_toFinset.mpr hxy, by decide⟩
    exact (candidate_fallback_cascade _ _).2.2.2.1 (by decide) (by decide)
      (Finset.ne_empty_of_mem hmem)
  · exact (candidate_fallback_cascade _ _).2.2.2.2 (by decide)
      (interKeys_nil _) (interKeys_nil _)

/-- Claim C2: `correction(word)` returns a member of the candidate set whose
probability is maximal among all candidates. -/
theorem correction_max_probability (tbl : Table) (N : ℕ) (w r : Word)
    (h : correction tbl N w = some r) :
    r ∈ candidate tbl w ∧ ∀ c ∈ candidate tbl w, P tbl N c ≤ P tbl N r := by
  unfold correction at h
  exact pyMax_spec h

/-- Witness for C2 on a concrete one-entry table. -/
theorem correction_max_probability_witness :
    ['t','h','e'] ∈ candidate [(['t','h','e'], 2)] ['t','h','e'] ∧
    ∀ c ∈ candidate [(['t','h','e'], 2)] ['t','h','e'],
      P [(['t','h','e'], 2)] 2 c ≤ P [(['t','h','e'], 2)] 2 ['t','h','e'] :=
  correction_max_probability [(['t','h','e'], 2)] 2 ['t','h','e'] ['t','h','e']
    (by decide)

/-- Claim C3: every word that is a key of the frequency table is a fixed
point of `correction`. -/
theorem correction_fixes_known_words (tbl : Table) (N : ℕ) (w : Word)
    (h : memTable tbl w = true) : correction tbl N w = some w := by
  unfold correction
  rw [candidate_of_mem h]
  rfl

/-- Witness for C3 on a concrete one-entry table. -/
theorem correction_fixes_known_words_witness :
    correction [(['t','h','e'], 2)] 2 ['t','h','e'] = some ['t','h','e'] :=
  correction_fixes_known_words [(['t','h','e'], 2)] 2 ['t','h','e'] (by decide)

/-- Claim C4: `P(word)` is the stored count divided by the total count for a
key of the table, and `0.0` for an absent word — absence is an ordinary
zero-probability state, not an error. -/
theorem probability_total_or_zero (tbl : Table) (N : ℕ) (w : Word) :
    (memTable tbl w = false → P tbl N w = 0) ∧
    (memTable tbl w = true →
      ∃ p ∈ tbl, p.1 = w ∧ P tbl N w = (p.2 : ℚ) / (N : ℚ)) := by
  constructor
  · intro h
    cases hf : tbl.find? (fun p => p.1 == w) with
    | none =>
      unfold P counterGet
      rw [hf]
      simp
    | some q =>
      unfold memTable at h
      rw [hf] at h
      simp at h
  · intro h
    unfold memTable at h
    cases hf : tbl.find? (fun p => p.1 == w) with
    | none =>
      rw [hf] at h
      simp at h
    | some q =>
      refine ⟨q, List.mem_of_find?_eq_some hf, ?_, ?_⟩
      · have hq := List.find?_some hf
        simpa using hq
      · unfold P counterGet
        rw [hf]
        simp

/-- Witness for C4: an absent word has probability zero, and a present word
reads its stored count. -/
theorem probability_total_or_zero_witness :
    P [(['t','h','e'], 2)] 4 ['a'] = 0 ∧
    ∃ p ∈ ([(['t','h','e'], 2)] : Table), p.1 = ['t','h','e'] ∧
      P [(['t','h','e'], 2)] 4 ['t','h','e'] = (p.2 : ℚ) / ((4 : ℕ) : ℚ) :=
  ⟨(probability_total_or_zero [(['t','h','e'], 2)] 4 ['a']).1 (by decide),
   (probability_total_or_zero [(['t','h','e'], 2)] 4 ['t','h','e']).2 (by decide)⟩

/-- Counterexample to C5 as stated: for the one-letter word `"a"` the
deletion operation yields two strings, one more than the word's length,
because the empty-right split is not excluded. -/
theorem deletes_count_counterexample :
    (get_deletes (get_splits ['a'])).length = 2 ∧
    (['a'] : Word).length < (get_deletes (get_splits ['a'])).length := by
  decide

/-- Claim C5 (amended): deletion results are produced from every split,
including the one with empty right side, so a word of length n yields
exactly n + 1 deletion strings; for n ≥ 1 the deduplicated
edits-at-distance-1 set still has size at most
(n+1) + (n-1) + 26n + 26(n+1). -/
theorem deletes_count_amended (w : Word) :
    (get_deletes (get_splits w)).length = w.length + 1 ∧
    (1 ≤ w.length →
      (edits1 w).length ≤
        (w.length + 1) + (w.length - 1) + 26 * w.length + 26 * (w.length + 1)) := by
  refine ⟨length_get_deletes w, fun _ => ?_⟩
  have hsub : (edits1 w).length ≤
      (get_deletes (get_splits w) ++ get_transposes (get_splits w) ++
        get_replaces (get_splits w) ++ get_inserts (get_splits w)).length :=
    (List.dedup_sublist _).length_le
  calc (edits1 w).length
      ≤ (get_deletes (get_splits w) ++ get_transposes (get_splits w) ++
          get_replaces (get_splits w) ++ get_inserts (get_splits w)).length := hsub
    _ = (w.length + 1) + (w.length - 1) + 26 * w.length + 26 * (w.length + 1) := by
        rw [List.length_append, List.length_append, List.length_append,
          length_get_deletes, length_get_transposes, length_get_replaces,
          length_get_inserts]

/-- Witness for the amended C5 at the one-letter word `"a"`. -/
theorem deletes_count_amended_witness :
    (get_deletes (get_splits ['a'])).length = (['a'] : Word).length + 1 ∧
    (edits1 ['a']).length ≤
      ((['a'] : Word).length + 1) + ((['a'] : Word).length - 1) +
        26 * (['a'] : Word).length + 26 * ((['a'] : Word).length + 1) :=
  ⟨(deletes_count_amended ['a']).1, (deletes_count_amended ['a']).2 (by decide)⟩

/-- Claim C6: every member of `edits1(w)` differs from `w` by at most one
primitive operation (deletion, adjacent transposition, replacement or
insertion), `w` itself being an allowed member. -/
theorem edits1_one_primitive_edit (w s : Word) (h : s ∈ edits1 w) :
    OneEdit w s := by
  unfold edits1 at h
  have h' := List.mem_dedup.mp h
  rcases List.mem_append.mp h' with h1 | h4
  · rcases List.mem_append.mp h1 with h2 | h3
    · rcases List.mem_append.mp h2 with hd | ht
      · exact oneEdit_of_mem_deletes hd
      · exact oneEdit_of_mem_transposes ht
    · exact oneEdit_of_mem_replaces h3
  · exact oneEdit_of_mem_inserts h4

/-- Witness for C6: the transposition `"ba"` of `"ab"` is one primitive
edit away. -/
theorem edits1_one_primitive_edit_witness : OneEdit ['a','b'] ['b','a'] :=
  edits1_one_primitive_edit ['a','b'] ['b','a'] (by decide)

/-- Claim C7: the set of elements produced by the `edits2` generator equals
the union of `edits1` over every member of `edits1(word)`. -/
theorem edits2_eq_biUnion_edits1 (w : Word) :
    (edits2 w).toFinset =
      (edits1 w).toFinset.biUnion (fun e => (edits1 e).toFinset) := by
  ext x
  simp [edits2, List.mem_flatMap]

/-- Claim C8: `correction` is total — for every input word, known or
unknown, including the empty string, the candidate list is non-empty and
`correction` returns a result. -/
theorem correction_total (tbl : Table) (N : ℕ) (w : Word) :
    0 < (candidate tbl w).length ∧ (correction tbl N w).isSome = true := by
  refine ⟨List.length_pos.mpr (candidate_ne_nil tbl w), ?_⟩
  unfold correction
  exact pyMax_isSome (candidate_ne_nil tbl w)

/-- Claim C9: every word, the empty one included, is a member of its own
`edits1` set, via the deletion entry built from the empty-right split. -/
theorem self_mem_edits1 (w : Word) : w ∈ edits1 w :=
  List.mem_dedup.mpr
    (List.mem_append_left _
      (List.mem_append_left _
        (List.mem_append_left _ (self_mem_get_deletes w))))

/-- Claim C10: whatever `correction` returns is either a key of the
frequency table or the original input word. -/
theorem correction_known_or_input (tbl : Table) (N : ℕ) (w r : Word)
    (h : correction tbl N w = some r) :
    memTable tbl r = true ∨ r = w := by
  unfold correction at h
  exact mem_candidate_cases (pyMax_spec h).1

/-- Witness for C10 on a concrete one-entry table. -/
theorem correction_known_or_input_witness :
    memTable [(['t','h','e'], 2)] ['t','h','e'] = true ∨
      (['t','h','e'] : Word) = ['t','h','e'] :=
  correction_known_or_input [(['t','h','e'], 2)] 2 ['t','h','e'] ['t','h','e']
    (by decide)
